import Mathlib

/-!
Verification development for the heavy-reactive incremental reactive-set
library.  The definitions below are a shallow embedding of the TypeScript
classes of the repository: the reactive collection (`$Set`), the reactive
cell (`$Value`), the variadic combinators (`$Union`, `$Intersection`,
`$Difference`), the per-dependency delta buffers, and the generalized
projection engine (`$SetFromAny`).  JavaScript `Set` objects are embedded
as `Finset`, the occurrence map (a JS `Map` whose values are numbers) as a
total function into `ℤ` with the absent key identified with the value `0`
(no code path of the repository distinguishes a missing key from a stored
zero: every read uses `?? 0` or JS truthiness, and a key is deleted
whenever its count becomes zero), and `undefined`-or-present fields as
`Option`.
-/

set_option autoImplicit false

deriving instance DecidableEq for Except

namespace HeavyReactive

variable {α : Type} [DecidableEq α]

/-- Error kinds of the library (section 7 of the specification), restricted
to the ones raised by the embedded code paths. -/
inductive ReactErr : Type where
  | reactivityDisabled
  | readonlyAccess
  | occurrenceUnderflow
deriving DecidableEq

/-- Collection delta as dispatched by `onChange`: each side is either
absent (JS `undefined`) or a set of elements. -/
structure SetDelta (α : Type) where
  increment : Option (Finset α)
  decrement : Option (Finset α)
deriving DecidableEq

/-- Input accepted by `applyChanges` (`TInputSetChanges`): either a full
overwrite or an incremental pair. -/
inductive SetChangesIn (α : Type) : Type where
  | overwrite (values : Finset α)
  | incdec (inc dec : Option (Finset α))
deriving DecidableEq

/-- Builds the emission of a batched mutation: the code dispatches a signal
iff one of the two computed sides is non-empty, and replaces an empty side
with `undefined`. -/
def mkDelta (inc dec : Finset α) : Option (SetDelta α) :=
  if inc.Nonempty ∨ dec.Nonempty then
    some ⟨if inc.Nonempty then some inc else none,
          if dec.Nonempty then some dec else none⟩
  else none

/-- State of a reactive collection `$Set`: the underlying native set, the
transaction flag and the two staging buffers, and the reactivity flag that
guards every public mutating entry point. -/
structure RSet (α : Type) where
  contents : Finset α
  txOpen : Bool
  txInc : Finset α
  txDec : Finset α
  reactive : Bool
deriving DecidableEq

namespace RSet

/-- Embedding of the private method `#openTransaction`: a re-entrant open
is a no-op, otherwise both staging buffers are cleared. -/
def openTransactionPriv (s : RSet α) : RSet α :=
  if s.txOpen then s
  else { s with txOpen := true, txInc := ∅, txDec := ∅ }

/-- Embedding of the private method `#closeTransaction`: the additions that
are genuinely new are applied first, then the staged removals that are
still present, and a single signal carries the net delta iff it is
non-empty. -/
def closeTransactionPriv (s : RSet α) : RSet α × Option (SetDelta α) :=
  if s.txOpen then
    let inc := s.txInc \ s.contents
    let c1 := s.contents ∪ inc
    let dec := s.txDec ∩ c1
    ({ contents := c1 \ dec, txOpen := false, txInc := ∅, txDec := ∅,
       reactive := s.reactive }, mkDelta inc dec)
  else (s, none)

/-- Embedding of the private method `#cancelTransaction`. -/
def cancelTransactionPriv (s : RSet α) : RSet α :=
  { s with txOpen := false, txInc := ∅, txDec := ∅ }

/-- Embedding of the private method `#reactiveAdd`. -/
def reactiveAdd (s : RSet α) (v : α) : RSet α × Option (SetDelta α) :=
  if s.txOpen then
    ({ s with txInc := insert v s.txInc, txDec := s.txDec.erase v }, none)
  else if v ∈ s.contents then (s, none)
  else ({ s with contents := insert v s.contents }, some ⟨some {v}, none⟩)

/-- Embedding of the private method `#reactiveDelete`; the boolean is the
return value of the JS method, which is `true` on every path. -/
def reactiveDelete (s : RSet α) (v : α) :
    RSet α × Bool × Option (SetDelta α) :=
  if s.txOpen then
    ({ s with txInc := s.txInc.erase v, txDec := insert v s.txDec },
     true, none)
  else if v ∈ s.contents then
    ({ s with contents := s.contents.erase v }, true, some ⟨none, some {v}⟩)
  else (s, true, none)

/-- Embedding of the private method `#batchReactiveAdd` (the `Set` branch;
the generic-iterable branch computes the same sets element by element). -/
def batchReactiveAdd (s : RSet α) (vs : Finset α) :
    RSet α × Option (SetDelta α) :=
  if s.txOpen then
    ({ s with txInc := s.txInc ∪ vs, txDec := s.txDec \ vs }, none)
  else
    let inc := vs \ s.contents
    ({ s with contents := s.contents ∪ inc },
     if inc.Nonempty then some ⟨some inc, none⟩ else none)

/-- Embedding of the private method `#batchReactiveDelete` (the `Set`
branch). -/
def batchReactiveDelete (s : RSet α) (vs : Finset α) :
    RSet α × Option (SetDelta α) :=
  if s.txOpen then
    ({ s with txInc := s.txInc \ vs, txDec := s.txDec ∪ vs }, none)
  else
    let dec := s.contents ∩ vs
    ({ s with contents := s.contents \ dec },
     if dec.Nonempty then some ⟨none, some dec⟩ else none)

/-- Embedding of the private method `#reactiveClear`. -/
def reactiveClear (s : RSet α) : RSet α × Option (SetDelta α) :=
  if s.txOpen then
    ({ s with txInc := ∅, txDec := s.contents }, none)
  else
    ({ s with contents := ∅ },
     if s.contents.Nonempty then some ⟨none, some s.contents⟩ else none)

/-- Embedding of the private method `#reactiveOverwrite` (the `Set`
branch). -/
def reactiveOverwrite (s : RSet α) (vs : Finset α) :
    RSet α × Option (SetDelta α) :=
  if s.txOpen then
    ({ s with txInc := vs, txDec := s.contents \ vs }, none)
  else
    let inc := vs \ s.contents
    let dec := s.contents \ vs
    ({ s with contents := (s.contents ∪ inc) \ dec }, mkDelta inc dec)

/-- Embedding of the private method `#reactiveApplyChanges`: an overwrite
payload is routed to `#reactiveOverwrite`; an incremental payload with at
least one present side is wrapped in an open/close transaction around the
two batch mutations, so at most one net delta is emitted. -/
def reactiveApplyChanges (s : RSet α) (ch : Option (SetChangesIn α)) :
    RSet α × Option (SetDelta α) :=
  match ch with
  | none => (s, none)
  | some (.overwrite vs) => reactiveOverwrite s vs
  | some (.incdec inc dec) =>
    if inc.isSome ∨ dec.isSome then
      let s1 := openTransactionPriv s
      let s2 := match inc with
        | some i => (batchReactiveAdd s1 i).1
        | none => s1
      let s3 := match dec with
        | some d => (batchReactiveDelete s2 d).1
        | none => s2
      closeTransactionPriv s3
    else (s, none)

/-- Public `add`: guarded by the reactivity flag. -/
def add (s : RSet α) (v : α) :
    Except ReactErr (RSet α × Option (SetDelta α)) :=
  if s.reactive then .ok (reactiveAdd s v) else .error .reactivityDisabled

/-- Public `delete`: guarded by the reactivity flag; the boolean result of
the JS method is part of the payload. -/
def delete (s : RSet α) (v : α) :
    Except ReactErr (RSet α × Bool × Option (SetDelta α)) :=
  if s.reactive then .ok (reactiveDelete s v) else .error .reactivityDisabled

/-- Public `batchAdd`. -/
def batchAdd (s : RSet α) (vs : Finset α) :
    Except ReactErr (RSet α × Option (SetDelta α)) :=
  if s.reactive then .ok (batchReactiveAdd s vs)
  else .error .reactivityDisabled

/-- Public `batchDelete`. -/
def batchDelete (s : RSet α) (vs : Finset α) :
    Except ReactErr (RSet α × Option (SetDelta α)) :=
  if s.reactive then .ok (batchReactiveDelete s vs)
  else .error .reactivityDisabled

/-- Public `clear`. -/
def clear (s : RSet α) :
    Except ReactErr (RSet α × Option (SetDelta α)) :=
  if s.reactive then .ok (reactiveClear s) else .error .reactivityDisabled

/-- Public `overwrite`. -/
def overwrite (s : RSet α) (vs : Finset α) :
    Except ReactErr (RSet α × Option (SetDelta α)) :=
  if s.reactive then .ok (reactiveOverwrite s vs)
  else .error .reactivityDisabled

/-- Public `applyChanges`. -/
def applyChanges (s : RSet α) (ch : Option (SetChangesIn α)) :
    Except ReactErr (RSet α × Option (SetDelta α)) :=
  if s.reactive then .ok (reactiveApplyChanges s ch)
  else .error .reactivityDisabled

/-- Public `openTransaction`. -/
def openTransaction (s : RSet α) : Except ReactErr (RSet α) :=
  if s.reactive then .ok (openTransactionPriv s)
  else .error .reactivityDisabled

/-- Public `closeTransaction`. -/
def closeTransaction (s : RSet α) :
    Except ReactErr (RSet α × Option (SetDelta α)) :=
  if s.reactive then .ok (closeTransactionPriv s)
  else .error .reactivityDisabled

/-- Public `cancelTransaction`. -/
def cancelTransaction (s : RSet α) : Except ReactErr (RSet α) :=
  if s.reactive then .ok (cancelTransactionPriv s)
  else .error .reactivityDisabled

end RSet

/-- Fresh reactive collection holding the given initial values, as built by
the `$Set` constructor (initial values are added silently). -/
def mkRSet (vs : Finset α) : RSet α :=
  { contents := vs, txOpen := false, txInc := ∅, txDec := ∅, reactive := true }

/-- Mutation requests that stage into the transaction buffers while a
transaction is open: the single-element, batch, clear and overwrite entry
points of the reactive collection. -/
inductive SetOp (α : Type) : Type where
  | add (v : α)
  | del (v : α)
  | batchAdd (vs : Finset α)
  | batchDelete (vs : Finset α)
  | clear
  | overwrite (vs : Finset α)
deriving DecidableEq

/-- Dispatches one mutation request through the corresponding public entry
point, keeping only the state (the staged forms emit nothing). -/
def stageOp (s : RSet α) : SetOp α → Except ReactErr (RSet α)
  | .add v => (RSet.add s v).map (·.1)
  | .del v => (RSet.delete s v).map (·.1)
  | .batchAdd vs => (RSet.batchAdd s vs).map (·.1)
  | .batchDelete vs => (RSet.batchDelete s vs).map (·.1)
  | .clear => (RSet.clear s).map (·.1)
  | .overwrite vs => (RSet.overwrite s vs).map (·.1)

/-- Runs a sequence of mutation requests through the public entry points. -/
def runStaged (s : RSet α) : List (SetOp α) → Except ReactErr (RSet α)
  | [] => .ok s
  | op :: rest => (stageOp s op).bind (fun s1 => runStaged s1 rest)

/-- Cell delta as dispatched by the `$Value` setter: optional previous and
next value containers. -/
structure ValDelta (α : Type) where
  increment : Option α
  decrement : Option α
deriving DecidableEq

/-- State of a reactive cell `$Value`: the stored value, the transaction
flag and the staged container.  The class has no reactivity flag, no
`cancelTransaction` and no `applyChanges`: the value setter,
`openTransaction` and `closeTransaction` are its only mutating members. -/
structure RVal (α : Type) where
  value : α
  txOpen : Bool
  txState : Option α
deriving DecidableEq

namespace RVal

/-- Embedding of the `$Value` setter: inside a transaction the next value
is staged; outside, a value deep-equal to the current one is a no-op, and
otherwise the value is replaced and a single change signal carries the
previous and next containers.  Deep structural equality is embedded as
decidable equality on the value type. -/
def setValue [DecidableEq α] (s : RVal α) (next : α) :
    RVal α × Option (ValDelta α) :=
  if s.txOpen then ({ s with txState := some next }, none)
  else if s.value = next then (s, none)
  else ({ s with value := next }, some ⟨some next, some s.value⟩)

/-- Embedding of `$Value.openTransaction`: re-entrant open is a no-op;
otherwise the staged container is cleared. -/
def openTx (s : RVal α) : RVal α :=
  if s.txOpen then s else { s with txOpen := true, txState := none }

/-- Embedding of `$Value.closeTransaction`: the flag is dropped first, then
the staged value (if any) is routed through the setter, which applies the
equality gate and emits at most one change; the staged container is then
cleared. -/
def closeTx [DecidableEq α] (s : RVal α) : RVal α × Option (ValDelta α) :=
  if s.txOpen then
    match s.txState with
    | none => ({ s with txOpen := false }, none)
    | some v =>
      let p := setValue { s with txOpen := false } v
      ({ p.1 with txState := none }, p.2)
  else (s, none)

end RVal

/-- Application of a result delta inside a combination.  The combinators
call the public `applyChanges` of their own result set; the result set of
a combination keeps `reactive = true` in every modeled run (nothing in the
library flips the `$Set`-level flag of a combination), so the guard always
passes and the call reduces to the private `#reactiveApplyChanges`. -/
def applyComb (s : RSet α) (inc dec : Option (Finset α)) :
    RSet α × Option (SetDelta α) :=
  RSet.reactiveApplyChanges s (some (.incdec inc dec))

/-- Occurrence-map update performed by a `for (const item of set)` loop that
increments the counter of every item; the per-item updates are independent,
so the loop is order-insensitive and embeds as a pointwise update. -/
def bumpOcc (occ : α → ℤ) (vs : Finset α) : α → ℤ :=
  fun x => if x ∈ vs then occ x + 1 else occ x

/-- State of a `$Difference` combination: the derived result set and the
occurrence map counting, for each value, the excluded subsets that
currently contain it. -/
structure DiffState (α : Type) where
  res : RSet α
  occ : α → ℤ

/-- Embedding of `$Difference.recalculateOnSubsetChange` (a change of an
excluded subset).  The increment loop runs first: each newly excluded value
has its count bumped, and values whose count reaches one are removed from
the result.  The decrement loop then reads the updated map: untracked
values are skipped, counts reaching zero delete the entry and restore the
value to the result. -/
def diffRecalcSubset (st : DiffState α) (inc dec : Option (Finset α)) :
    DiffState α × Option (SetDelta α) :=
  let i := inc.getD ∅
  let d := dec.getD ∅
  let removedFromResult := i.filter (fun x => st.occ x = 0)
  let occ1 := bumpOcc st.occ i
  let addedBack := d.filter (fun x => occ1 x = 1)
  let occ2 := fun x => if x ∈ d ∧ occ1 x ≠ 0 then occ1 x - 1 else occ1 x
  let p := applyComb st.res (some addedBack) (some removedFromResult)
  ({ res := p.1, occ := occ2 }, p.2)

/-- Embedding of `$Difference.handleChangesOfSuperset`.  An absent
increment defaults to the empty set.  Every value removed from the
superset has its occurrence entry deleted (this models
`valueOccurrences.delete(item)`), then the values of the increment whose
occurrence entry is falsy are applied as the result increment, and the raw
decrement is passed through. -/
def diffHandleSuper (st : DiffState α) (inc dec : Option (Finset α)) :
    DiffState α × Option (SetDelta α) :=
  let i := inc.getD ∅
  let d := dec.getD ∅
  let occ1 := fun x => if x ∈ d then 0 else st.occ x
  let nonOccurred := i.filter (fun x => occ1 x = 0)
  let p := applyComb st.res (some nonOccurred) dec
  ({ res := p.1, occ := occ1 }, p.2)

/-- Construction of an enabled `$Difference`: the base variadic constructor
mounts every excluded subset (its current contents arrive as an initial
increment through `recalculateOnSubsetChange`), then the subclass
constructor mounts the superset (its current contents arrive as an initial
increment through `handleChangesOfSuperset`). -/
def diffInit (superset : Finset α) (subsets : List (Finset α)) :
    DiffState α :=
  let st0 : DiffState α := { res := mkRSet ∅, occ := fun _ => 0 }
  let st1 := subsets.foldl
    (fun st sub => (diffRecalcSubset st (some sub) none).1) st0
  (diffHandleSuper st1 (some superset) none).1

/-- State of an `$Intersection` combination: the derived result set, the
occurrence map, and the size of `includedSubsets`. -/
structure InterState (α : Type) where
  res : RSet α
  occ : α → ℤ
  included : ℕ

/-- Embedding of `$Intersection.recalculateOnSubsetChange`.  Added values
have their count bumped and join the result when the new count equals the
number of included subsets; removed values have their count decremented
unconditionally (an absent entry reads as zero and the decremented value
is stored back), and the raw decrement of the subset is forwarded as the
result decrement. -/
def interRecalcSubset (st : InterState α) (inc dec : Option (Finset α)) :
    InterState α × Option (SetDelta α) :=
  let i := inc.getD ∅
  let d := dec.getD ∅
  let addedToIntersection :=
    i.filter (fun x => st.occ x + 1 = (st.included : ℤ))
  let occ1 := bumpOcc st.occ i
  let occ2 := fun x => if x ∈ d then occ1 x - 1 else occ1 x
  let p := applyComb st.res (some addedToIntersection) dec
  ({ st with res := p.1, occ := occ2 }, p.2)

/-- Embedding of `$Intersection.mountSubset`: the counts of the values of
the new subset are bumped, and everything currently in the result but
absent from the new subset is removed.  Nothing is ever added to the
result by this method. -/
def interMount (st : InterState α) (sub : Finset α) :
    InterState α × Option (SetDelta α) :=
  let occ1 := bumpOcc st.occ sub
  let dec := st.res.contents \ sub
  if dec.Nonempty then
    let p := applyComb { st with occ := occ1 }.res none (some dec)
    ({ st with res := p.1, occ := occ1 }, p.2)
  else ({ st with occ := occ1 }, none)

/-- Construction of an enabled `$Intersection`: each subset is first added
to `includedSubsets` and then mounted. -/
def interInit (subsets : List (Finset α)) : InterState α :=
  subsets.foldl
    (fun st sub =>
      (interMount { st with included := st.included + 1 } sub).1)
    { res := mkRSet ∅, occ := fun _ => 0, included := 0 }

/-- State of a `$Union` combination: the derived result set, the occurrence
map, the registered (and included) sources, and the local enabled flag of
the combination base class. -/
structure UnionState (α : Type) where
  res : RSet α
  occ : α → ℤ
  sources : List (Finset α)
  isLocallyEnabled : Bool

/-- Embedding of `$Union.recalculateOnSubsetChange`.  Added values join the
result on a zero-to-one transition.  A removed value whose current count is
falsy raises (`Cannot decrement item ... not currently tracked`); otherwise
the count is decremented and the value leaves the result on a one-to-zero
transition. -/
def unionRecalcSubset (occ : α → ℤ) (inc dec : Option (Finset α)) :
    Except ReactErr ((α → ℤ) × Finset α × Finset α) :=
  let i := inc.getD ∅
  let d := dec.getD ∅
  let addedToUnion := i.filter (fun x => occ x = 0)
  let occ1 := bumpOcc occ i
  if (d.filter (fun x => occ1 x = 0)).Nonempty then
    .error .occurrenceUnderflow
  else
    let removedFromUnion := d.filter (fun x => occ1 x = 1)
    let occ2 := fun x => if x ∈ d then occ1 x - 1 else occ1 x
    .ok (occ2, addedToUnion, removedFromUnion)

/-- Embedding of the base-class `mountSubset` as used by `$Union`: the
whole current subset arrives as an increment-only change and the computed
result delta is applied to the result set (an increment-only change never
raises). -/
def unionMount (st : UnionState α) (sub : Finset α) : UnionState α :=
  match unionRecalcSubset st.occ (some sub) none with
  | .error _ => st
  | .ok (occ1, added, removed) =>
    let p := applyComb st.res (some added) (some removed)
    { st with res := p.1, occ := occ1 }

/-- Construction of an enabled `$Union` over plain reactive sources: every
source is registered, included and mounted. -/
def unionInit (sources : List (Finset α)) : UnionState α :=
  sources.foldl unionMount
    { res := mkRSet ∅, occ := fun _ => 0, sources := sources,
      isLocallyEnabled := true }

/-- Embedding of `disable()` on a `$Union`.  Deactivation drops the local
flag first and then runs `onDeactivated`: the switch signal fires, the
pending transaction of the result is cancelled, the result is cleared, and
each subset is unmounted — but `unmountSubset` only touches the occurrence
map when the combination is still enabled, which is no longer the case, so
the occurrence contributions stay behind. -/
def unionDisable (st : UnionState α) : UnionState α :=
  if st.isLocallyEnabled then
    let r1 := RSet.cancelTransactionPriv st.res
    let r2 := (RSet.reactiveClear r1).1
    { st with isLocallyEnabled := false, res := r2 }
  else st

/-- Embedding of `enable()` on a `$Union`: the local flag is raised and
`onActivated` re-mounts every included subset. -/
def unionEnable (st : UnionState α) : UnionState α :=
  if st.isLocallyEnabled then st
  else
    let st1 := { st with isLocallyEnabled := true }
    st.sources.foldl unionMount st1

/-- A `DeltaBufferForSet` together with its observed source collection and
a history variable recording the contents of the source at the moment of
the last commit (what the specification calls the committed state). -/
structure TrackedBuf (α : Type) where
  src : Finset α
  pendingAdded : Finset α
  pendingRemoved : Finset α
  committed : Bool
  srcAtCommit : Finset α

/-- Steps observed by a delta buffer: a source delta (the source mutates
and its emitted change is routed to `bufferIncomingChange`), or a call to
`commitChanges`. -/
inductive BufStep (α : Type) : Type where
  | delta (inc dec : Finset α)
  | commit

/-- One step of the buffer.  `bufferIncomingChange` first runs the
increment loop (add to `pendingAdded`, drop from `pendingRemoved`) and
then the decrement loop (drop from `pendingAdded`, add to
`pendingRemoved`); `commitChanges` clears both pending sets and raises the
committed flag, at which point the history variable records the current
source. -/
def bufStep (b : TrackedBuf α) : BufStep α → TrackedBuf α
  | .delta inc dec =>
    { src := (b.src \ dec) ∪ inc,
      pendingAdded := (b.pendingAdded ∪ inc) \ dec,
      pendingRemoved := (b.pendingRemoved \ inc) ∪ dec,
      committed := b.committed,
      srcAtCommit := b.srcAtCommit }
  | .commit =>
    { src := b.src, pendingAdded := ∅, pendingRemoved := ∅,
      committed := true, srcAtCommit := b.src }

/-- Runs a list of buffer steps. -/
def bufRun (b : TrackedBuf α) (steps : List (BufStep α)) : TrackedBuf α :=
  steps.foldl bufStep b

/-- Embedding of `DeltaBufferForSet.getCommittedState`: the formula
`(source minus pendingAdded) union pendingRemoved` when a commit has
happened, `null` before the first commit. -/
def getCommittedState (b : TrackedBuf α) : Option (Finset α) :=
  if b.committed then some ((b.src \ b.pendingAdded) ∪ b.pendingRemoved)
  else none

/-- A buffer immediately after `commitChanges` on a source holding `vs`.  -/
def freshCommitted (vs : Finset α) : TrackedBuf α :=
  { src := vs, pendingAdded := ∅, pendingRemoved := ∅, committed := true,
    srcAtCommit := vs }

/-- A buffer immediately after `enable()` on a source holding `vs`: the
constructor subscribes and buffers the whole current source as an initial
increment; no commit has happened yet (the history variable is vacuous
while the committed flag is down). -/
def freshEnabledBuf (vs : Finset α) : TrackedBuf α :=
  { src := vs, pendingAdded := vs, pendingRemoved := ∅, committed := false,
    srcAtCommit := ∅ }

/-- Checks that a list of deltas is faithful to the evolving source: each
increment is disjoint from the current source and from its own decrement,
and each decrement is contained in the current source.  These are exactly
the deltas a reactive collection emits. -/
def faithfulRun (src : Finset α) : List (Finset α × Finset α) → Bool
  | [] => true
  | (i, d) :: rest =>
    (i ∩ src = ∅ ∧ d ⊆ src ∧ i ∩ d = ∅ : Bool) &&
      faithfulRun ((src \ d) ∪ i) rest

/-- Union of all increments of a delta list. -/
def allIncs (l : List (Finset α × Finset α)) : Finset α :=
  l.foldr (fun p acc => p.1 ∪ acc) ∅

/-- Union of all decrements of a delta list. -/
def allDecs (l : List (Finset α × Finset α)) : Finset α :=
  l.foldr (fun p acc => p.2 ∪ acc) ∅

/-- Applies a list of source deltas to a buffer. -/
def bufRunDeltas (b : TrackedBuf α) (l : List (Finset α × Finset α)) :
    TrackedBuf α :=
  bufRun b (l.map (fun p => .delta p.1 p.2))

/-- A dependency source of the projection engine: a reactive collection or
a reactive cell. -/
inductive EngSource (α : Type) : Type where
  | set (contents : Finset α)
  | val (value : α)
deriving DecidableEq

/-- A per-dependency delta buffer of the projection engine, in either of
its two shapes.  The enabled flag also stands for the liveness of the
subscription to the source: the code always toggles the two together
(`attachBuffers` enables and subscribes, `detachBuffers` aborts and
disables). -/
inductive EngBuffer (α : Type) : Type where
  | set (pendingAdded pendingRemoved : Finset α) (committed : Bool)
      (enabled : Bool)
  | val (pending : Option α) (committedV : Option α) (enabled : Bool)
deriving DecidableEq

/-- Whether a buffer is enabled. -/
def EngBuffer.enabled : EngBuffer α → Bool
  | .set _ _ _ en => en
  | .val _ _ en => en

/-- Whether `getBufferedChanges` (resp. `getBufferedChange`) of the buffer
returns a non-null delta. -/
def EngBuffer.hasDelta : EngBuffer α → Bool
  | .set pA pR _ _ => pA.Nonempty ∨ pR.Nonempty
  | .val p _ _ => p.isSome

/-- Entry of the resolved context: a committed collection state or a
committed value container, each possibly null. -/
inductive CtxEntry (α : Type) : Type where
  | setState (s : Option (Finset α))
  | valState (v : Option α)
deriving DecidableEq

/-- The payload handed to a resolver: the buffered collection delta or the
buffered value change. -/
inductive ResolverInput (α : Type) : Type where
  | setD (inc dec : Finset α)
  | valD (inc : α) (dec : Option α)
deriving DecidableEq

/-- A user resolver: from the context snapshot and the buffered delta to a
result-level change, or a failure (a thrown exception or a rejected
promise). -/
def Resolver (α : Type) : Type :=
  List (CtxEntry α) → ResolverInput α → Except Unit (SetChangesIn α)

/-- The committed state of one dependency as computed by
`contextSnapshot`. -/
def committedOf (s : EngSource α) (b : EngBuffer α) : CtxEntry α :=
  match s, b with
  | .set src, .set pA pR c _ =>
    .setState (if c then some ((src \ pA) ∪ pR) else none)
  | .val _, .val _ cv _ => .valState cv
  | .set _, .val _ cv _ => .valState cv
  | .val _, .set _ pR c _ => .setState (if c then some pR else none)

/-- The buffered delta of a buffer, if any. -/
def bufferedOf (b : EngBuffer α) : Option (ResolverInput α) :=
  match b with
  | .set pA pR _ _ =>
    if pA.Nonempty ∨ pR.Nonempty then some (.setD pA pR) else none
  | .val p cv _ => p.map (fun v => .valD v cv)

/-- Commit of a buffer, as performed by the sync loop before awaiting the
resolver: a collection buffer clears both pending sets and raises its
committed flag; a cell buffer moves the pending container into the
committed slot (the loop only commits buffers holding a pending change). -/
def commitB : EngBuffer α → EngBuffer α
  | .set _ _ _ en => .set ∅ ∅ true en
  | .val p _ en => .val none p en

/-- Disable of a buffer (`disable()`): the subscription is aborted and the
pending state is cleared; the committed flag of a collection buffer is not
reset, the committed container of a cell buffer is cleared. -/
def disableB : EngBuffer α → EngBuffer α
  | .set pA pR c en => if en then .set ∅ ∅ c false else .set pA pR c false
  | .val p cv en => if en then .val none none false else .val p cv false

/-- State of a `$SetFromAny` projection engine over plain (non-combination)
sources, together with instrumentation counters: emitted switch signals,
logged worker failures, and resolver invocations. -/
structure Engine (α : Type) : Type where
  sources : List (EngSource α)
  buffers : List (EngBuffer α)
  resolvers : List (Resolver α)
  res : RSet α
  isLocallyEnabled : Bool
  switchCount : ℕ
  logCount : ℕ
  resolverCalls : ℕ

/-- Embedding of `contextSnapshot`. -/
def ctxSnapshot (e : Engine α) : List (CtxEntry α) :=
  (e.sources.zip e.buffers).map (fun p => committedOf p.1 p.2)

/-- The catch branch of `runWorker`: the failure is logged, the engine
disables itself (all modeled sources are plain containers, so every parent
is active): the local flag drops, the switch signal fires once, the
pending transaction of the result is cancelled, the result is cleared, and
every buffer is detached and disabled. -/
def quarantine (e : Engine α) : Engine α :=
  let e1 := { e with logCount := e.logCount + 1 }
  if e1.isLocallyEnabled then
    let r1 := RSet.cancelTransactionPriv e1.res
    let r2 := (RSet.reactiveClear r1).1
    { e1 with
      isLocallyEnabled := false,
      switchCount := e1.switchCount + 1,
      res := r2,
      buffers := e1.buffers.map disableB }
  else e1

/-- Commit of buffer `i` inside the sync loop, together with the resolver
invocation counter (the resolver is called right after the commit). -/
def commitAt (e : Engine α) (i : ℕ) (b : EngBuffer α) : Engine α :=
  { e with
    buffers := e.buffers.set i (commitB b),
    resolverCalls := e.resolverCalls + 1 }

/-- Application of a resolver result to the result collection through its
internal `applyChanges`. -/
def applyRes (e : Engine α) (ch : SetChangesIn α) : Engine α :=
  { e with res := (RSet.reactiveApplyChanges e.res (some ch)).1 }

/-- Outcome of one scan of the sync loop: no buffered delta anywhere, a
resolver failure (with the post-commit state), or one resolved delta
applied (with the resulting state). -/
inductive SyncStep (α : Type) : Type where
  | idle
  | failed (e1 : Engine α)
  | stepped (e1 : Engine α)

/-- One scan of the sync loop: in declaration order the first buffer
holding a buffered delta is committed, the context snapshot is taken, and
the resolver runs on the snapshot and the delta; its failure or the state
after applying its result is reported. -/
def syncDecide (e : Engine α) : SyncStep α :=
  match e.buffers.findIdx? EngBuffer.hasDelta with
  | none => .idle
  | some i =>
    match e.buffers.get? i, e.resolvers.get? i with
    | some b, some r =>
      match bufferedOf b with
      | none => .idle
      | some delta =>
        match r (ctxSnapshot (commitAt e i b)) delta with
        | .error _ => .failed (commitAt e i b)
        | .ok ch => .stepped (applyRes (commitAt e i b) ch)
    | _, _ => .idle

/-- The synchronization loop of the sync worker, fuelled.  A resolver
failure is caught (the boolean reports it) and quarantines the engine; a
success restarts the scan.  The loop ends when no buffer holds a delta.
In this synchronous model no new delta arrives while a resolver runs, so
each iteration empties one buffer and the fuel `buffers.length + 1` used
by `synchronize` is always sufficient. -/
def syncLoop : ℕ → Engine α → Engine α × Bool
  | 0, e => (e, false)
  | fuel + 1, e =>
    match syncDecide e with
    | .idle => (e, false)
    | .failed e1 => (quarantine e1, true)
    | .stepped e1 => syncLoop fuel e1

/-- Embedding of `synchronize` (one worker run; the latch is trivially free
in this sequential model). -/
def synchronize (e : Engine α) : Engine α × Bool :=
  syncLoop (e.buffers.length + 1) e

/-- A mutation of one dependency source: a collection delta applied to a
collection source, or an assignment to a cell source. -/
inductive SrcMut (α : Type) : Type where
  | setDelta (inc dec : Finset α)
  | valSet (v : α)
deriving DecidableEq

/-- Source update of dependency `i`. -/
def withSrc (e : Engine α) (i : ℕ) (s : EngSource α) : Engine α :=
  { e with sources := e.sources.set i s }

/-- Buffer update of dependency `i`. -/
def withBuf (e : Engine α) (i : ℕ) (b : EngBuffer α) : Engine α :=
  { e with buffers := e.buffers.set i b }

/-- Outcome of delivering a dependency mutation: either nothing further
happens, or a synchronization run starts from the given state. -/
inductive MutRes (α : Type) : Type where
  | silent (e1 : Engine α)
  | sync (e1 : Engine α)

/-- Delivery of a mutation of dependency `i`.  The source updates; if the
buffer of the dependency is enabled (its subscription is alive) the change
is buffered — the collection buffer through `bufferIncomingChange`, the
cell buffer through the equality-gated value path — and, when a buffered
delta exists afterwards, a synchronization run starts.  A disabled buffer
ignores the change entirely, and a cell assignment of an equal value emits
nothing at the source already. -/
def mutDecide (e : Engine α) (i : ℕ) (m : SrcMut α) : MutRes α :=
  match e.sources.get? i, e.buffers.get? i, m with
  | some (.set src), some (.set pA pR c en), .setDelta inc dec =>
    if en then
      if (EngBuffer.set ((pA ∪ inc) \ dec) ((pR \ inc) ∪ dec) c
          en).hasDelta then
        .sync (withBuf (withSrc e i (.set ((src \ dec) ∪ inc))) i
          (.set ((pA ∪ inc) \ dec) ((pR \ inc) ∪ dec) c en))
      else
        .silent (withBuf (withSrc e i (.set ((src \ dec) ∪ inc))) i
          (.set ((pA ∪ inc) \ dec) ((pR \ inc) ∪ dec) c en))
    else .silent (withSrc e i (.set ((src \ dec) ∪ inc)))
  | some (.val cur), some (.val p cv en), .valSet v =>
    if cur = v then .silent e
    else if en then
      if p = some v then .silent (withSrc e i (.val v))
      else
        if (EngBuffer.val (if cv = some v then none else some v) cv
            en).hasDelta then
          .sync (withBuf (withSrc e i (.val v)) i
            (.val (if cv = some v then none else some v) cv en))
        else
          .silent (withBuf (withSrc e i (.val v)) i
            (.val (if cv = some v then none else some v) cv en))
    else .silent (withSrc e i (.val v))
  | _, _, _ => .silent e

/-- Mutation of dependency `i`: the delivery outcome, with the triggered
synchronization run when one starts.  The boolean reports whether a
resolver failure occurred during the run. -/
def mutateSource (e : Engine α) (i : ℕ) (m : SrcMut α) : Engine α × Bool :=
  match mutDecide e i m with
  | .silent e1 => (e1, false)
  | .sync e1 => synchronize e1

/-- Runs a list of dependency mutations. -/
def runMutations (e : Engine α) : List (ℕ × SrcMut α) → Engine α
  | [] => e
  | (i, m) :: rest => runMutations (mutateSource e i m).1 rest

/-- The quarantined condition: the engine is locally disabled and every
dependency buffer is detached. -/
def Quarantined (e : Engine α) : Prop :=
  e.isLocallyEnabled = false ∧ ∀ b ∈ e.buffers, b.enabled = false

/-- Concrete single-dependency engine used as a witness: its resolver fails
on any delta carrying a decrement. -/
def engineW : Engine ℕ :=
  { sources := [.set {0}],
    buffers := [.set ∅ ∅ false true],
    resolvers := [fun _ inp =>
      match inp with
      | .setD _ dec => if dec.Nonempty then .error () else .ok (.incdec (some ∅) none)
      | .valD _ _ => .ok (.incdec none none)],
    res := mkRSet ∅,
    isLocallyEnabled := true,
    switchCount := 0, logCount := 0, resolverCalls := 0 }

/-- Concrete reactivity-disabled collection used in witnesses. -/
def disabledSetW : RSet ℕ :=
  { contents := {4}, txOpen := false, txInc := ∅, txDec := ∅,
    reactive := false }

/-- Claim C1.  The claim states that after any finite sequence of
mutations to the superset and the excluded subsets — explicitly including
removing an element from the superset and re-adding it while it is still
present in an excluded subset — the difference contents equal the superset
minus the union of the excluded subsets.  Evaluating the embedded code on
superset `{1}` with excluded subset `{1}`: the initial result is empty and
correct; removing `1` from the superset deletes its exclusion record from
the occurrence map (`handleChangesOfSuperset` runs
`valueOccurrences.delete`), so re-adding `1` to the superset finds a falsy
occurrence count and restores `1` to the result even though `1` is still
in the excluded subset.  The result is `{1}` while the documented value is
the empty set. -/
theorem difference_superset_readd_divergence :
    (diffInit ({1} : Finset ℕ) [{1}]).res.contents = ∅ ∧
    (diffHandleSuper
        (diffHandleSuper (diffInit ({1} : Finset ℕ) [{1}])
          none (some {1})).1
        (some {1}) none).1.res.contents = {1} ∧
    ({1} : Finset ℕ) \ {1} = ∅ ∧
    (diffHandleSuper
        (diffHandleSuper (diffInit ({1} : Finset ℕ) [{1}])
          none (some {1})).1
        (some {1}) none).1.res.contents ≠ ({1} : Finset ℕ) \ {1} := by
  decide

/-- Claim C2.  The claim states that an intersection built over sources
`{1,2,3}` and `{2,3,4}` initially contains exactly `{2,3}`.  Evaluating
the embedded constructor: `$Intersection.mountSubset` only bumps
occurrence counts and removes result elements missing from the new subset;
no path ever adds the initial common elements to the result, so the
freshly constructed intersection is empty, not `{2,3}` (the doc examples
of the class and of the `$intersectionSets` factory also promise
`{2,3}`). -/
theorem intersection_initially_empty_divergence :
    (interInit [({1, 2, 3} : Finset ℕ), {2, 3, 4}]).res.contents = ∅ ∧
    ({1, 2, 3} : Finset ℕ) ∩ {2, 3, 4} = {2, 3} ∧
    (interInit [({1, 2, 3} : Finset ℕ), {2, 3, 4}]).res.contents ≠
      ({1, 2, 3} : Finset ℕ) ∩ {2, 3, 4} := by
  decide

/-- Claim C5.  The claim states that enabling, disabling and re-enabling a
combination yields the same terminal contents as never toggling, with
unchanged sources.  Evaluating the embedded union over the single source
`{1}`: at deactivation the result is cleared but `unmountSubset` skips the
occurrence-map rollback (its guard reads the already-lowered enabled
flag), so re-enabling re-mounts the source onto stale counts — the
zero-to-one transition never fires and the union stays empty, while the
never-toggled union holds `{1}`. -/
theorem union_toggle_divergence :
    (unionInit [({1} : Finset ℕ)]).res.contents = {1} ∧
    (unionEnable (unionDisable (unionInit [({1} : Finset ℕ)]))).res.contents
      = ∅ ∧
    (unionEnable (unionDisable (unionInit [({1} : Finset ℕ)]))).res.contents
      ≠ (unionInit [({1} : Finset ℕ)]).res.contents := by
  decide

/-- Claim C4, counterexample.  The claim states that every mutating
operation of a cell marked immutable fails with `ReactivityDisabled` and
leaves the observable value unchanged.  The embedded `$Value` — translated
from both source variants — has no immutable marking, no reactivity guard,
no `cancelTransaction` and no `applyChanges`: the value setter applied to
a cell holding `0` simply stores `1`, changes the observable value and
emits a change signal. -/
theorem cell_mutation_never_guarded_cex :
    (RVal.setValue (⟨0, false, none⟩ : RVal ℕ) 1).1.value = 1 ∧
    (RVal.setValue (⟨0, false, none⟩ : RVal ℕ) 1).1.value ≠ 0 ∧
    (RVal.setValue (⟨0, false, none⟩ : RVal ℕ) 1).2 =
      some ⟨some 1, some 0⟩ := by
  decide

/-- Claim C7, counterexample.  The claim states that `getCommittedState`
always returns the source state at the moment of the last commit.  Start
from a buffer freshly committed on source `{0}` and route two perfectly
faithful source deltas through `bufferIncomingChange`: delete `0`, then
re-add `0`.  The pending sets end as `pendingAdded = {0}`,
`pendingRemoved = ∅`, so the formula yields the empty set although the
source at the last commit was `{0}`. -/
theorem committed_state_formula_cex :
    faithfulRun ({0} : Finset ℕ) [(∅, {0}), ({0}, ∅)] = true ∧
    (bufRunDeltas (freshCommitted ({0} : Finset ℕ))
        [(∅, {0}), ({0}, ∅)]).srcAtCommit = {0} ∧
    getCommittedState (bufRunDeltas (freshCommitted ({0} : Finset ℕ))
        [(∅, {0}), ({0}, ∅)]) = some ∅ ∧
    getCommittedState (bufRunDeltas (freshCommitted ({0} : Finset ℕ))
        [(∅, {0}), ({0}, ∅)]) ≠ some {0} := by
  decide

/-- Claim C8, counterexample.  The claim states that in every variadic
combinator a removal for a value with zero or absent occurrence count
raises and is never stored as a negative count, and that counts stay
bounded by the number of included sources.  Evaluating the embedded code:
the intersection processes such a removal without raising and stores the
count `-1`; and after a disable/enable cycle the union holds the count `2`
for a value contributed by its single included source. -/
theorem occurrence_underflow_cex :
    (interRecalcSubset
        { res := mkRSet (∅ : Finset ℕ), occ := fun _ => 0, included := 1 }
        none (some {0})).1.occ 0 = -1 ∧
    (unionEnable (unionDisable (unionInit [({0} : Finset ℕ)]))).occ 0 = 2 ∧
    (unionEnable (unionDisable (unionInit [({0} : Finset ℕ)]))).sources.length
      = 1 := by
  decide

/-- Claim C10.  For every reactive collection with reactivity enabled and
no open transaction, `delete(v)` returns `true` for every value `v`,
including absent values (unlike native `Set.prototype.delete`), while the
change signal fires only when `v` was actually present and removed. -/
theorem delete_returns_true_always (s : RSet α) (v : α)
    (hr : s.reactive = true) (ht : s.txOpen = false) :
    RSet.delete s v =
      .ok ({ s with contents := s.contents.erase v }, true,
        if v ∈ s.contents then some ⟨none, some {v}⟩ else none) := by
  obtain ⟨c, o, ti, td, r⟩ := s
  simp only at hr ht
  subst hr; subst ht
  unfold RSet.delete RSet.reactiveDelete
  by_cases h : v ∈ c
  · simp [h]
  · simp [h, Finset.erase_eq_self.mpr h]

/-- Witness for claim C10 at a concrete collection holding `{1, 2}`. -/
theorem delete_returns_true_always_witness :
    (mkRSet ({1, 2} : Finset ℕ)).reactive = true ∧
    (mkRSet ({1, 2} : Finset ℕ)).txOpen = false ∧
    RSet.delete (mkRSet ({1, 2} : Finset ℕ)) 3 =
      .ok ({ mkRSet ({1, 2} : Finset ℕ) with
              contents := (mkRSet ({1, 2} : Finset ℕ)).contents.erase 3 },
        true,
        if 3 ∈ (mkRSet ({1, 2} : Finset ℕ)).contents then
          some ⟨none, some {3}⟩ else none) :=
  ⟨rfl, rfl, delete_returns_true_always (mkRSet {1, 2}) 3 rfl rfl⟩

/-- Claim C9.  For a reactive cell outside a transaction (a closed cell
always has an empty staged container: `openTransaction` clears it and
`closeTransaction` clears it after committing): assigning a value
deep-equal to the current one changes nothing and emits nothing; and the
sequence openTransaction, assign `a`, assign `b`, closeTransaction is
state- and emission-equivalent to the single assignment of `b` — which is
itself a no-op when `b` deep-equals the current value. -/
theorem cell_equality_gate_and_tx_equiv (s : RVal α) (a b : α)
    (ht : s.txOpen = false) (hs : s.txState = none) :
    RVal.setValue s s.value = (s, none) ∧
    (RVal.setValue (RVal.openTx s) a).2 = none ∧
    (RVal.setValue (RVal.setValue (RVal.openTx s) a).1 b).2 = none ∧
    RVal.closeTx (RVal.setValue (RVal.setValue (RVal.openTx s) a).1 b).1 =
      RVal.setValue s b ∧
    (b = s.value → RVal.setValue s b = (s, none)) := by
  obtain ⟨v, o, t⟩ := s
  simp only at ht hs
  subst ht; subst hs
  refine ⟨?_, ?_, ?_, ?_, ?_⟩
  · simp [RVal.setValue]
  · simp [RVal.setValue, RVal.openTx]
  · simp [RVal.setValue, RVal.openTx]
  · by_cases hvb : v = b
    · simp [RVal.setValue, RVal.openTx, RVal.closeTx, hvb]
    · simp [RVal.setValue, RVal.openTx, RVal.closeTx, hvb]
  · intro hb
    simp [RVal.setValue, hb]

/-- Witness for claim C9 at a concrete cell holding `7`. -/
theorem cell_equality_gate_and_tx_equiv_witness :
    ((⟨7, false, none⟩ : RVal ℕ).txOpen = false) ∧
    ((⟨7, false, none⟩ : RVal ℕ).txState = none) ∧
    RVal.closeTx (RVal.setValue
        (RVal.setValue (RVal.openTx (⟨7, false, none⟩ : RVal ℕ)) 1).1 2).1 =
      RVal.setValue (⟨7, false, none⟩ : RVal ℕ) 2 :=
  ⟨rfl, rfl,
    (cell_equality_gate_and_tx_equiv (⟨7, false, none⟩ : RVal ℕ) 1 2
      rfl rfl).2.2.2.1⟩

/-- Claim C4, amended.  The `ReactivityDisabled` guard exists only on the
reactive collection: every public mutating entry point of a collection
whose reactivity is disabled fails with `ReactivityDisabled`.  The cell
class has no immutable marking and no guard at all — it does not even have
`cancelTransaction` or `applyChanges` — and its setter, given a differing
value outside a transaction, always updates the observable value and emits
a change. -/
theorem reactivity_guard_only_on_collections (c : RVal α) (v : α)
    (s : RSet α) (w : α) (vs : Finset α) (ch : Option (SetChangesIn α))
    (hc : c.txOpen = false) (hv : c.value ≠ v) (hs : s.reactive = false) :
    (RVal.setValue c v).1.value = v ∧
    (RVal.setValue c v).2 = some ⟨some v, some c.value⟩ ∧
    RSet.add s w = .error .reactivityDisabled ∧
    RSet.delete s w = .error .reactivityDisabled ∧
    RSet.batchAdd s vs = .error .reactivityDisabled ∧
    RSet.batchDelete s vs = .error .reactivityDisabled ∧
    RSet.clear s = .error .reactivityDisabled ∧
    RSet.overwrite s vs = .error .reactivityDisabled ∧
    RSet.applyChanges s ch = .error .reactivityDisabled ∧
    RSet.openTransaction s = .error .reactivityDisabled ∧
    RSet.closeTransaction s = .error .reactivityDisabled ∧
    RSet.cancelTransaction s = .error .reactivityDisabled := by
  refine ⟨?_, ?_, ?_, ?_, ?_, ?_, ?_, ?_, ?_, ?_, ?_, ?_⟩ <;>
    simp [RVal.setValue, RSet.add, RSet.delete, RSet.batchAdd,
      RSet.batchDelete, RSet.clear, RSet.overwrite, RSet.applyChanges,
      RSet.openTransaction, RSet.closeTransaction, RSet.cancelTransaction,
      hc, hv, Ne.symm hv, hs]

/-- Witness for the amended claim C4 at a concrete cell and a concrete
reactivity-disabled collection. -/
theorem reactivity_guard_only_on_collections_witness :
    ((⟨0, false, none⟩ : RVal ℕ).txOpen = false) ∧
    ((⟨0, false, none⟩ : RVal ℕ).value ≠ 1) ∧
    (disabledSetW.reactive = false) ∧
    (RVal.setValue (⟨0, false, none⟩ : RVal ℕ) 1).1.value = 1 ∧
    RSet.add disabledSetW 9 = .error .reactivityDisabled :=
  ⟨rfl, by decide, rfl,
    (reactivity_guard_only_on_collections (⟨0, false, none⟩ : RVal ℕ) 1
      disabledSetW 9 ∅ none rfl (by decide) rfl).1,
    (reactivity_guard_only_on_collections (⟨0, false, none⟩ : RVal ℕ) 1
      disabledSetW 9 ∅ none rfl (by decide) rfl).2.2.1⟩

/-- Helper: while a transaction is open, each public mutation stages into
the buffers, keeps the transaction open and the contents untouched, and
preserves the disjointness of the two staging buffers. -/
theorem stageOp_ok (s : RSet α) (op : SetOp α)
    (hr : s.reactive = true) (ht : s.txOpen = true) :
    ∃ s1 : RSet α, stageOp s op = .ok s1 ∧ s1.reactive = true ∧
      s1.txOpen = true ∧ s1.contents = s.contents ∧
      (s.txInc ∩ s.txDec = ∅ → s1.txInc ∩ s1.txDec = ∅) := by
  obtain ⟨c, o, ti, td, r⟩ := s
  simp only at hr ht
  subst hr; subst ht
  have mkdisj : ∀ A B : Finset α,
      (∀ x, x ∈ A → x ∈ B → False) → A ∩ B = ∅ := by
    intro A B h
    rw [Finset.eq_empty_iff_forall_not_mem]
    intro x hx
    rw [Finset.mem_inter] at hx
    exact h x hx.1 hx.2
  have getdisj : ti ∩ td = ∅ → ∀ x, x ∈ ti → x ∈ td → False := by
    intro h x h1 h2
    exact Finset.eq_empty_iff_forall_not_mem.mp h x
      (Finset.mem_inter.mpr ⟨h1, h2⟩)
  cases op with
  | add v =>
    refine ⟨⟨c, true, insert v ti, td.erase v, true⟩, ?_, rfl, rfl, rfl, ?_⟩
    · simp [stageOp, RSet.add, RSet.reactiveAdd, Except.map]
    · intro h
      refine mkdisj _ _ (fun x hx1 hx2 => ?_)
      rw [Finset.mem_insert] at hx1
      rw [Finset.mem_erase] at hx2
      rcases hx1 with h1 | h1
      · exact hx2.1 h1
      · exact getdisj h x h1 hx2.2
  | del v =>
    refine ⟨⟨c, true, ti.erase v, insert v td, true⟩, ?_, rfl, rfl, rfl, ?_⟩
    · simp [stageOp, RSet.delete, RSet.reactiveDelete, Except.map]
    · intro h
      refine mkdisj _ _ (fun x hx1 hx2 => ?_)
      rw [Finset.mem_erase] at hx1
      rw [Finset.mem_insert] at hx2
      rcases hx2 with h2 | h2
      · exact hx1.1 h2
      · exact getdisj h x hx1.2 h2
  | batchAdd vs =>
    refine ⟨⟨c, true, ti ∪ vs, td \ vs, true⟩, ?_, rfl, rfl, rfl, ?_⟩
    · simp [stageOp, RSet.batchAdd, RSet.batchReactiveAdd, Except.map]
    · intro h
      refine mkdisj _ _ (fun x hx1 hx2 => ?_)
      rw [Finset.mem_union] at hx1
      rw [Finset.mem_sdiff] at hx2
      rcases hx1 with h1 | h1
      · exact getdisj h x h1 hx2.1
      · exact hx2.2 h1
  | batchDelete vs =>
    refine ⟨⟨c, true, ti \ vs, td ∪ vs, true⟩, ?_, rfl, rfl, rfl, ?_⟩
    · simp [stageOp, RSet.batchDelete, RSet.batchReactiveDelete, Except.map]
    · intro h
      refine mkdisj _ _ (fun x hx1 hx2 => ?_)
      rw [Finset.mem_sdiff] at hx1
      rw [Finset.mem_union] at hx2
      rcases hx2 with h2 | h2
      · exact getdisj h x hx1.1 h2
      · exact hx1.2 h2
  | clear =>
    refine ⟨⟨c, true, ∅, c, true⟩, ?_, rfl, rfl, rfl, ?_⟩
    · simp [stageOp, RSet.clear, RSet.reactiveClear, Except.map]
    · intro _
      exact Finset.empty_inter c
  | overwrite vs =>
    refine ⟨⟨c, true, vs, c \ vs, true⟩, ?_, rfl, rfl, rfl, ?_⟩
    · simp [stageOp, RSet.overwrite, RSet.reactiveOverwrite, Except.map]
    · intro _
      refine mkdisj _ _ (fun x hx1 hx2 => ?_)
      rw [Finset.mem_sdiff] at hx2
      exact hx2.2 hx1

/-- Helper: a sequence of mutations staged while a transaction is open
succeeds, keeps the transaction open, and preserves the buffer
disjointness. -/
theorem runStaged_ok (ops : List (SetOp α)) :
    ∀ s : RSet α, s.reactive = true → s.txOpen = true →
    ∃ s1 : RSet α, runStaged s ops = .ok s1 ∧ s1.reactive = true ∧
      s1.txOpen = true ∧
      (s.txInc ∩ s.txDec = ∅ → s1.txInc ∩ s1.txDec = ∅) := by
  induction ops with
  | nil =>
    intro s hr ht
    exact ⟨s, rfl, hr, ht, id⟩
  | cons op rest ih =>
    intro s hr ht
    obtain ⟨s1, h1, hr1, ht1, _, hd1⟩ := stageOp_ok s op hr ht
    obtain ⟨s2, h2, hr2, ht2, hd2⟩ := ih s1 hr1 ht1
    refine ⟨s2, ?_, hr2, ht2, fun h => hd2 (hd1 h)⟩
    simp [runStaged, h1, h2, Except.bind]

/-- Claim C3.  For every reactive collection, and every sequence of
mutations staged while a transaction is open, `closeTransaction` computes
`increment = pendingAdded` minus the current contents and
`decrement = pendingRemoved` intersected with the current contents,
applies both in place, and emits at most one delta, only when one side is
non-empty, with the two sides disjoint (the code intersects
`pendingRemoved` with the contents after the additions, which coincides
with the stated value because the staging keeps the two buffers disjoint).
The final conjunct is the concrete scenario: on an empty collection,
openTransaction, add two values, delete the first, closeTransaction emits
exactly one delta whose increment holds the second value and whose
decrement is absent. -/
theorem closeTransaction_net_delta (s0 s1 : RSet α) (ops : List (SetOp α))
    (hr : s0.reactive = true) (ht : s0.txOpen = false)
    (hrun : (RSet.openTransaction s0).bind (fun t => runStaged t ops) =
      .ok s1) :
    (RSet.closeTransaction s1 =
      .ok ({ contents := (s1.contents ∪ (s1.txInc \ s1.contents)) \
               (s1.txDec ∩ s1.contents),
             txOpen := false, txInc := ∅, txDec := ∅,
             reactive := s1.reactive },
        mkDelta (s1.txInc \ s1.contents) (s1.txDec ∩ s1.contents))) ∧
    (s1.txInc \ s1.contents) ∩ (s1.txDec ∩ s1.contents) = ∅ ∧
    (mkDelta (s1.txInc \ s1.contents) (s1.txDec ∩ s1.contents) = none ↔
      s1.txInc \ s1.contents = ∅ ∧ s1.txDec ∩ s1.contents = ∅) ∧
    ((RSet.openTransaction (mkRSet (∅ : Finset ℕ))).bind (fun t =>
        runStaged t [SetOp.add 0, SetOp.add 1, SetOp.del 0])).bind
      (fun t => RSet.closeTransaction t) =
      .ok ({ contents := {1}, txOpen := false, txInc := ∅, txDec := ∅,
             reactive := true }, some ⟨some {1}, none⟩) := by
  have hopen : RSet.openTransaction s0 =
      .ok { s0 with txOpen := true, txInc := ∅, txDec := ∅ } := by
    simp [RSet.openTransaction, RSet.openTransactionPriv, hr, ht]
  rw [hopen] at hrun
  simp only [Except.bind] at hrun
  obtain ⟨s1x, h1, hr1, ht1, hd1⟩ :=
    runStaged_ok ops { s0 with txOpen := true, txInc := ∅, txDec := ∅ }
      hr rfl
  rw [h1] at hrun
  have hs1 : s1x = s1 := by
    simpa using hrun
  subst hs1
  have hd : s1x.txInc ∩ s1x.txDec = ∅ := hd1 (Finset.empty_inter ∅)
  have hdmem : ∀ x, x ∈ s1x.txInc → x ∈ s1x.txDec → False := by
    intro x h1m h2m
    exact Finset.eq_empty_iff_forall_not_mem.mp hd x
      (Finset.mem_inter.mpr ⟨h1m, h2m⟩)
  have hdec : s1x.txDec ∩ (s1x.contents ∪ (s1x.txInc \ s1x.contents)) =
      s1x.txDec ∩ s1x.contents := by
    ext x
    simp only [Finset.mem_inter, Finset.mem_union, Finset.mem_sdiff]
    constructor
    · rintro ⟨hxd, hxc | ⟨hxi, _⟩⟩
      · exact ⟨hxd, hxc⟩
      · exact absurd hxd (fun hc => hdmem x hxi hc)
    · rintro ⟨hxd, hxc⟩
      exact ⟨hxd, Or.inl hxc⟩
  refine ⟨?_, ?_, ?_, ?_⟩
  · simp only [RSet.closeTransaction, hr1, if_true,
      RSet.closeTransactionPriv, ht1]
    rw [hdec]
  · rw [Finset.eq_empty_iff_forall_not_mem]
    intro x hx
    rw [Finset.mem_inter, Finset.mem_sdiff, Finset.mem_inter] at hx
    exact hx.1.2 hx.2.2
  · constructor
    · intro hnone
      unfold mkDelta at hnone
      by_cases hcase : (s1x.txInc \ s1x.contents).Nonempty ∨
          (s1x.txDec ∩ s1x.contents).Nonempty
      · simp [hcase] at hnone
      · push_neg at hcase
        exact ⟨Finset.not_nonempty_iff_eq_empty.mp hcase.1,
          Finset.not_nonempty_iff_eq_empty.mp hcase.2⟩
    · intro ⟨he1, he2⟩
      simp [mkDelta, he1, he2]
  · decide

/-- Witness for claim C3: staging a single addition on the empty
collection. -/
theorem closeTransaction_net_delta_witness :
    ((mkRSet (∅ : Finset ℕ)).reactive = true) ∧
    ((mkRSet (∅ : Finset ℕ)).txOpen = false) ∧
    (RSet.closeTransaction (⟨∅, true, {0}, ∅, true⟩ : RSet ℕ) =
      .ok ({ contents := ((⟨∅, true, {0}, ∅, true⟩ : RSet ℕ).contents ∪
               ((⟨∅, true, {0}, ∅, true⟩ : RSet ℕ).txInc \
                 (⟨∅, true, {0}, ∅, true⟩ : RSet ℕ).contents)) \
               ((⟨∅, true, {0}, ∅, true⟩ : RSet ℕ).txDec ∩
                 (⟨∅, true, {0}, ∅, true⟩ : RSet ℕ).contents),
             txOpen := false, txInc := ∅, txDec := ∅,
             reactive := (⟨∅, true, {0}, ∅, true⟩ : RSet ℕ).reactive },
        mkDelta ((⟨∅, true, {0}, ∅, true⟩ : RSet ℕ).txInc \
            (⟨∅, true, {0}, ∅, true⟩ : RSet ℕ).contents)
          ((⟨∅, true, {0}, ∅, true⟩ : RSet ℕ).txDec ∩
            (⟨∅, true, {0}, ∅, true⟩ : RSet ℕ).contents))) :=
  ⟨rfl, rfl,
    (closeTransaction_net_delta (mkRSet ∅) ⟨∅, true, {0}, ∅, true⟩
      [SetOp.add 0] rfl rfl (by decide)).1⟩

/-- Helper: unfolding of one buffered delta. -/
theorem bufRunDeltas_cons (b : TrackedBuf α) (p : Finset α × Finset α)
    (rest : List (Finset α × Finset α)) :
    bufRunDeltas b (p :: rest) =
      bufRunDeltas (bufStep b (.delta p.1 p.2)) rest := rfl

/-- Helper: every delta of a list is bounded by the unions of all its
increments and of all its decrements. -/
theorem mem_allIncs_allDecs (l : List (Finset α × Finset α)) :
    ∀ p ∈ l, p.1 ⊆ allIncs l ∧ p.2 ⊆ allDecs l := by
  induction l with
  | nil =>
    intro p hp
    cases hp
  | cons q rest ih =>
    intro p hp
    rcases List.mem_cons.mp hp with h | h
    · subst h
      exact ⟨Finset.subset_union_left, Finset.subset_union_left⟩
    · obtain ⟨h1, h2⟩ := ih p h
      exact ⟨h1.trans Finset.subset_union_right,
        h2.trans Finset.subset_union_right⟩

/-- Helper: the window invariant of the delta buffer.  Starting right
after a commit on `src` (with committed state `sAC = src`, generalized to
any `sAC` with canonical pending sets), a faithful delta run whose
increments avoid `I0`-disjoint decrements keeps the pending sets in the
canonical shape `pendingAdded = src minus sAC`,
`pendingRemoved = sAC minus src`. -/
theorem bufWindow_aux (I0 D0 : Finset α) (hID : ∀ x, x ∈ I0 → x ∉ D0)
    (l : List (Finset α × Finset α)) :
    ∀ src sAC : Finset α,
      faithfulRun src l = true →
      (∀ p ∈ l, p.1 ⊆ I0 ∧ p.2 ⊆ D0) →
      src \ sAC ⊆ I0 → sAC \ src ⊆ D0 →
      ∃ src2 : Finset α,
        bufRunDeltas ⟨src, src \ sAC, sAC \ src, true, sAC⟩ l =
          ⟨src2, src2 \ sAC, sAC \ src2, true, sAC⟩ := by
  induction l with
  | nil =>
    intro src sAC _ _ _ _
    exact ⟨src, rfl⟩
  | cons q rest ih =>
    intro src sAC hf hsub hA hB
    obtain ⟨i, d⟩ := q
    simp only [faithfulRun, Bool.and_eq_true, decide_eq_true_eq] at hf
    obtain ⟨⟨hisrc, hdsrc, hid⟩, hfrest⟩ := hf
    have hi : i ⊆ I0 := (hsub (i, d) (List.mem_cons_self _ _)).1
    have hd : d ⊆ D0 := (hsub (i, d) (List.mem_cons_self _ _)).2
    have hii : ∀ x, x ∈ i → x ∉ src := by
      intro x hx hc
      exact Finset.eq_empty_iff_forall_not_mem.mp hisrc x
        (Finset.mem_inter.mpr ⟨hx, hc⟩)
    have hid2 : ∀ x, x ∈ i → x ∉ d := by
      intro x hx hc
      exact Finset.eq_empty_iff_forall_not_mem.mp hid x
        (Finset.mem_inter.mpr ⟨hx, hc⟩)
    have hAm : ∀ x, x ∈ src → x ∉ sAC → x ∈ I0 := by
      intro x h1 h2
      exact hA (Finset.mem_sdiff.mpr ⟨h1, h2⟩)
    have hBm : ∀ x, x ∈ sAC → x ∉ src → x ∈ D0 := by
      intro x h1 h2
      exact hB (Finset.mem_sdiff.mpr ⟨h1, h2⟩)
    have hisac : ∀ x, x ∈ i → x ∉ sAC := by
      intro x hx hc
      exact hID x (hi hx) (hBm x hc (hii x hx))
    have hdsac : ∀ x, x ∈ d → x ∈ sAC := by
      intro x hx
      by_contra hc
      exact hID x (hAm x (hdsrc hx) hc) (hd hx)
    have eq1 : ((src \ sAC) ∪ i) \ d = ((src \ d) ∪ i) \ sAC := by
      ext x
      simp only [Finset.mem_sdiff, Finset.mem_union]
      constructor
      · rintro ⟨h1 | h1, h2⟩
        · exact ⟨Or.inl ⟨h1.1, h2⟩, h1.2⟩
        · exact ⟨Or.inr h1, hisac x h1⟩
      · rintro ⟨h1 | h1, h2⟩
        · exact ⟨Or.inl ⟨h1.1, h2⟩, h1.2⟩
        · exact ⟨Or.inr h1, hid2 x h1⟩
    have eq2 : ((sAC \ src) \ i) ∪ d = sAC \ ((src \ d) ∪ i) := by
      ext x
      simp only [Finset.mem_sdiff, Finset.mem_union]
      constructor
      · rintro (⟨⟨hs, hns⟩, hni⟩ | hdx)
        · refine ⟨hs, fun h => ?_⟩
          rcases h with ⟨h3, _⟩ | h3
          · exact hns h3
          · exact hni h3
        · refine ⟨hdsac x hdx, fun h => ?_⟩
          rcases h with ⟨_, hnd⟩ | h3
          · exact hnd hdx
          · exact hid2 x h3 hdx
      · rintro ⟨hs, hn⟩
        by_cases hdx : x ∈ d
        · exact Or.inr hdx
        · refine Or.inl ⟨⟨hs, fun hsrc => hn (Or.inl ⟨hsrc, hdx⟩)⟩,
            fun hix => hn (Or.inr hix)⟩
    rw [bufRunDeltas_cons]
    have hstep :
        bufStep (⟨src, src \ sAC, sAC \ src, true, sAC⟩ : TrackedBuf α)
          (.delta i d) =
          ⟨(src \ d) ∪ i, ((src \ d) ∪ i) \ sAC, sAC \ ((src \ d) ∪ i),
            true, sAC⟩ := by
      simp only [bufStep]
      rw [eq1, eq2]
    rw [hstep]
    refine ih ((src \ d) ∪ i) sAC hfrest
      (fun p hp => hsub p (List.mem_cons_of_mem _ hp)) ?_ ?_
    · rw [← eq1]
      intro x hx
      simp only [Finset.mem_sdiff, Finset.mem_union] at hx
      rcases hx.1 with h1 | h1
      · exact hAm x h1.1 h1.2
      · exact hi h1
    · rw [← eq2]
      intro x hx
      simp only [Finset.mem_union, Finset.mem_sdiff] at hx
      rcases hx with ⟨⟨h1, h2⟩, _⟩ | h1
      · exact hBm x h1 h2
      · exact hd h1

/-- Helper: the two pending sets of a delta buffer stay disjoint across
any sequence of buffered deltas and commits. -/
theorem bufRun_disjoint (steps : List (BufStep α)) :
    ∀ b : TrackedBuf α, b.pendingAdded ∩ b.pendingRemoved = ∅ →
      (bufRun b steps).pendingAdded ∩ (bufRun b steps).pendingRemoved =
        ∅ := by
  induction steps with
  | nil =>
    intro b h
    exact h
  | cons st rest ih =>
    intro b h
    have hstep : (bufStep b st).pendingAdded ∩
        (bufStep b st).pendingRemoved = ∅ := by
      cases st with
      | delta i d =>
        simp only [bufStep]
        rw [Finset.eq_empty_iff_forall_not_mem]
        intro x hx
        rw [Finset.mem_inter, Finset.mem_sdiff, Finset.mem_union,
          Finset.mem_union, Finset.mem_sdiff] at hx
        obtain ⟨⟨h1, h2⟩, h3 | h3⟩ := hx
        · rcases h1 with h1 | h1
          · exact Finset.eq_empty_iff_forall_not_mem.mp h x
              (Finset.mem_inter.mpr ⟨h1, h3.1⟩)
          · exact h3.2 h1
        · exact h2 h3
      | commit =>
        simp [bufStep]
    exact ih (bufStep b st) hstep

/-- Helper: buffered deltas never raise the committed flag. -/
theorem bufRunDeltas_committed (l : List (Finset α × Finset α)) :
    ∀ b : TrackedBuf α,
      (bufRunDeltas b l).committed = b.committed := by
  induction l with
  | nil =>
    intro b
    rfl
  | cons q rest ih =>
    intro b
    rw [bufRunDeltas_cons, ih]
    rfl

/-- Claim C7, amended.  For the per-dependency collection delta buffer:
the sets pendingAdded and pendingRemoved remain disjoint after any
sequence of buffered deltas and commits; `getCommittedState` returns null
when `commitChanges` has never been called; and it returns the source
state at the moment of the last commit — computed as
`(source minus pendingAdded) union pendingRemoved` — provided the deltas
since that commit are faithful source deltas in which no element appears
both in some increment and in some decrement (the formula breaks when an
element removed since the commit is re-added, or vice versa). -/
theorem buffer_disjoint_and_committed_state (src0 : Finset α)
    (l : List (Finset α × Finset α))
    (hfaith : faithfulRun src0 l = true)
    (hcross : allIncs l ∩ allDecs l = ∅) :
    (∀ steps : List (BufStep α),
      (bufRun (freshEnabledBuf src0) steps).pendingAdded ∩
        (bufRun (freshEnabledBuf src0) steps).pendingRemoved = ∅) ∧
    (∀ l2 : List (Finset α × Finset α),
      getCommittedState (bufRunDeltas (freshEnabledBuf src0) l2) = none) ∧
    getCommittedState (bufRunDeltas (freshCommitted src0) l) =
      some src0 := by
  refine ⟨?_, ?_, ?_⟩
  · intro steps
    refine bufRun_disjoint steps (freshEnabledBuf src0) ?_
    simp [freshEnabledBuf]
  · intro l2
    have hc := bufRunDeltas_committed l2 (freshEnabledBuf src0)
    unfold getCommittedState
    rw [hc]
    simp [freshEnabledBuf]
  · have hID : ∀ x, x ∈ allIncs l → x ∉ allDecs l := by
      intro x h1 h2
      exact Finset.eq_empty_iff_forall_not_mem.mp hcross x
        (Finset.mem_inter.mpr ⟨h1, h2⟩)
    have hstart : freshCommitted src0 =
        (⟨src0, src0 \ src0, src0 \ src0, true, src0⟩ : TrackedBuf α) := by
      simp [freshCommitted, Finset.sdiff_self]
    obtain ⟨src2, heq⟩ := bufWindow_aux (allIncs l) (allDecs l) hID l
      src0 src0 hfaith (mem_allIncs_allDecs l)
      (by simp [Finset.sdiff_self]) (by simp [Finset.sdiff_self])
    rw [hstart, heq]
    unfold getCommittedState
    simp only [if_true]
    congr 1
    ext x
    simp only [Finset.mem_union, Finset.mem_sdiff]
    constructor
    · rintro (⟨_, h2⟩ | ⟨h1, _⟩)
      · by_contra hc
        exact h2 ⟨‹x ∈ src2›, hc⟩
      · exact h1
    · intro hx
      by_cases h2 : x ∈ src2
      · exact Or.inl ⟨h2, fun hc => hc.2 hx⟩
      · exact Or.inr ⟨hx, h2⟩

/-- Witness for the amended claim C7: source `{0, 1}`, one faithful delta
adding `2` and removing `0` after the commit. -/
theorem buffer_disjoint_and_committed_state_witness :
    faithfulRun ({0, 1} : Finset ℕ) [({2}, {0})] = true ∧
    allIncs [(({2} : Finset ℕ), ({0} : Finset ℕ))] ∩
      allDecs [(({2} : Finset ℕ), ({0} : Finset ℕ))] = ∅ ∧
    getCommittedState (bufRunDeltas (freshCommitted ({0, 1} : Finset ℕ))
      [({2}, {0})]) = some {0, 1} :=
  ⟨by decide, by decide,
    (buffer_disjoint_and_committed_state ({0, 1} : Finset ℕ) [({2}, {0})]
      (by decide) (by decide)).2.2⟩

/-- Claim C8, amended.  The three variadic combinators treat a removal for
a value with zero (or absent) occurrence count differently: the union
raises a contract-violation error; the intersection silently decrements
and stores the negative count; the difference silently skips the value.
No combinator clamps a negative result to zero, and (per the
counterexample) counts are not in general bounded by the number of
included sources across disable/enable cycles. -/
theorem occurrence_underflow_behaviour (occ : α → ℤ) (x : α)
    (sti : InterState α) (std : DiffState α)
    (hu : occ x = 0) (hi : sti.occ x ≤ 0) (hd : std.occ x = 0) :
    unionRecalcSubset occ none (some {x}) =
      .error .occurrenceUnderflow ∧
    (interRecalcSubset sti none (some {x})).1.occ x = sti.occ x - 1 ∧
    (interRecalcSubset sti none (some {x})).1.occ x < 0 ∧
    (diffRecalcSubset std none (some {x})).1.occ x = std.occ x := by
  refine ⟨?_, ?_, ?_, ?_⟩
  · unfold unionRecalcSubset
    simp [bumpOcc, Finset.filter_singleton, hu]
  · simp [interRecalcSubset, bumpOcc]
  · have h2 : (interRecalcSubset sti none (some {x})).1.occ x =
        sti.occ x - 1 := by
      simp [interRecalcSubset, bumpOcc]
    rw [h2]
    omega
  · simp [diffRecalcSubset, bumpOcc, hd]

/-- Witness for the amended claim C8 at the zero occurrence map. -/
theorem occurrence_underflow_behaviour_witness :
    ((fun _ => (0 : ℤ)) (0 : ℕ) = 0) ∧
    unionRecalcSubset (fun _ => (0 : ℤ)) none (some ({0} : Finset ℕ)) =
      .error .occurrenceUnderflow ∧
    (interRecalcSubset
        { res := mkRSet (∅ : Finset ℕ), occ := fun _ => 0, included := 1 }
        none (some {0})).1.occ 0 < 0 :=
  ⟨rfl,
    (occurrence_underflow_behaviour (fun _ => (0 : ℤ)) (0 : ℕ)
      { res := mkRSet (∅ : Finset ℕ), occ := fun _ => 0, included := 1 }
      { res := mkRSet (∅ : Finset ℕ), occ := fun _ => 0 }
      rfl (by decide) rfl).1,
    (occurrence_underflow_behaviour (fun _ => (0 : ℤ)) (0 : ℕ)
      { res := mkRSet (∅ : Finset ℕ), occ := fun _ => 0, included := 1 }
      { res := mkRSet (∅ : Finset ℕ), occ := fun _ => 0 }
      rfl (by decide) rfl).2.2.1⟩

/-- Helper: detaching a buffer always leaves it disabled. -/
theorem disableB_enabled (b : EngBuffer α) : (disableB b).enabled = false := by
  cases b with
  | set pA pR c en => cases en <;> rfl
  | val p cv en => cases en <;> rfl

/-- Helper: quarantining an enabled engine disables it and detaches every
buffer, logs the failure once, emits exactly one switch signal, and leaves
the resolver-call counter unchanged. -/
theorem quarantine_spec (e : Engine α) (h : e.isLocallyEnabled = true) :
    Quarantined (quarantine e) ∧
    (quarantine e).logCount = e.logCount + 1 ∧
    (quarantine e).switchCount = e.switchCount + 1 ∧
    (quarantine e).resolverCalls = e.resolverCalls := by
  unfold quarantine Quarantined
  simp only [h, if_true]
  refine ⟨⟨by simp, ?_⟩, by simp, by simp, by simp⟩
  intro b hb
  simp only [List.mem_map] at hb
  obtain ⟨b0, _, hb0⟩ := hb
  rw [← hb0]
  exact disableB_enabled b0

/-- Helper: a failed scan reports the committed pre-resolver state, whose
lifecycle fields match the scanned state. -/
theorem syncDecide_failed_fields {e e1 : Engine α}
    (h : syncDecide e = .failed e1) :
    e1.isLocallyEnabled = e.isLocallyEnabled ∧ e1.logCount = e.logCount ∧
    e1.switchCount = e.switchCount := by
  unfold syncDecide at h
  repeat' split at h
  all_goals first
    | (injection h with h2
       subst h2
       exact ⟨rfl, rfl, rfl⟩)
    | injection h

/-- Helper: a successful scan step preserves the lifecycle fields. -/
theorem syncDecide_stepped_fields {e e1 : Engine α}
    (h : syncDecide e = .stepped e1) :
    e1.isLocallyEnabled = e.isLocallyEnabled ∧ e1.logCount = e.logCount ∧
    e1.switchCount = e.switchCount := by
  unfold syncDecide at h
  repeat' split at h
  all_goals first
    | (injection h with h2
       subst h2
       exact ⟨rfl, rfl, rfl⟩)
    | injection h

/-- Helper: when a sync run reports a failure, the final state is
quarantined, with one more log entry and one more switch emission than the
state the run started from. -/
theorem syncLoop_error (fuel : ℕ) :
    ∀ e : Engine α, e.isLocallyEnabled = true →
      (syncLoop fuel e).2 = true →
      Quarantined (syncLoop fuel e).1 ∧
      (syncLoop fuel e).1.logCount = e.logCount + 1 ∧
      (syncLoop fuel e).1.switchCount = e.switchCount + 1 := by
  induction fuel with
  | zero =>
    intro e _ herr
    simp [syncLoop] at herr
  | succ n ih =>
    intro e he herr
    rw [syncLoop] at herr ⊢
    rcases hs : syncDecide e with _ | e1 | e1 <;> rw [hs] at herr
    · simp at herr
    · obtain ⟨hf, hl, hsw⟩ := syncDecide_failed_fields hs
      have hq := quarantine_spec e1 (hf.trans he)
      refine ⟨hq.1, ?_, ?_⟩
      · show (quarantine e1).logCount = e.logCount + 1
        rw [hq.2.1, hl]
      · show (quarantine e1).switchCount = e.switchCount + 1
        rw [hq.2.2.1, hsw]
    · obtain ⟨hf, hl, hsw⟩ := syncDecide_stepped_fields hs
      obtain ⟨hq1, hq2, hq3⟩ := ih e1 (hf.trans he) herr
      refine ⟨hq1, ?_, ?_⟩
      · show (syncLoop n e1).1.logCount = e.logCount + 1
        rw [hq2, hl]
      · show (syncLoop n e1).1.switchCount = e.switchCount + 1
        rw [hq3, hsw]

/-- Helper: a run triggered by a mutation preserves the lifecycle fields
of the pre-mutation engine at its start. -/
theorem mutDecide_sync_fields {e e1 : Engine α} {i : ℕ} {m : SrcMut α}
    (h : mutDecide e i m = .sync e1) :
    e1.isLocallyEnabled = e.isLocallyEnabled ∧ e1.logCount = e.logCount ∧
    e1.switchCount = e.switchCount := by
  unfold mutDecide at h
  repeat' split at h
  all_goals first
    | (injection h with h2
       subst h2
       exact ⟨rfl, rfl, rfl⟩)
    | injection h

/-- Helper: on a quarantined engine every mutation is delivered silently:
either nothing changes or only the mutated source is updated (the buffer
subscriptions are all detached). -/
theorem mutDecide_quarantined_shape (e : Engine α) (i : ℕ) (m : SrcMut α)
    (hq : Quarantined e) :
    mutDecide e i m = .silent e ∨
      ∃ s : EngSource α, mutDecide e i m = .silent (withSrc e i s) := by
  unfold mutDecide
  rcases hs : e.sources.get? i with _ | s
  · rcases m with ⟨inc, dec⟩ | v <;> exact Or.inl rfl
  · rcases hb : e.buffers.get? i with _ | b
    · rcases s with src | cur <;> rcases m with ⟨inc, dec⟩ | v <;>
        exact Or.inl rfl
    · rcases s with src | cur <;>
        rcases b with ⟨pA, pR, c, en⟩ | ⟨p, cv, en⟩ <;>
        rcases m with ⟨inc, dec⟩ | v
      · -- set source, set buffer, set delta: the subscription is detached
        have hen : en = false := by
          have h2 := hq.2 _ (List.get?_mem hb)
          simpa [EngBuffer.enabled] using h2
        subst hen
        exact Or.inr ⟨_, rfl⟩
      · exact Or.inl rfl
      · exact Or.inl rfl
      · exact Or.inl rfl
      · exact Or.inl rfl
      · exact Or.inl rfl
      · exact Or.inl rfl
      · -- val source, val buffer, val assignment
        have hen : en = false := by
          have h2 := hq.2 _ (List.get?_mem hb)
          simpa [EngBuffer.enabled] using h2
        subst hen
        by_cases hcv : cur = v
        · exact Or.inl (by simp [hcv])
        · exact Or.inr ⟨EngSource.val v, by simp [hcv]⟩

/-- Helper: a quarantined engine stays quarantined across any single
mutation, without any resolver call. -/
theorem mutateSource_quarantined (e : Engine α) (i : ℕ) (m : SrcMut α)
    (hq : Quarantined e) :
    (mutateSource e i m).2 = false ∧
    Quarantined (mutateSource e i m).1 ∧
    (mutateSource e i m).1.resolverCalls = e.resolverCalls := by
  rcases mutDecide_quarantined_shape e i m hq with h | ⟨s, h⟩ <;>
    unfold mutateSource <;> rw [h]
  · exact ⟨rfl, hq, rfl⟩
  · exact ⟨rfl, ⟨hq.1, hq.2⟩, rfl⟩

/-- Helper: a quarantined engine stays quarantined across any sequence of
dependency mutations, and its resolver-call counter never moves. -/
theorem runMutations_quarantined (ms : List (ℕ × SrcMut α)) :
    ∀ e : Engine α, Quarantined e →
      Quarantined (runMutations e ms) ∧
      (runMutations e ms).resolverCalls = e.resolverCalls := by
  induction ms with
  | nil =>
    intro e hq
    exact ⟨hq, rfl⟩
  | cons q rest ih =>
    obtain ⟨qi, qm⟩ := q
    intro e hq
    obtain ⟨-, hq1, hcalls⟩ := mutateSource_quarantined e qi qm hq
    obtain ⟨hq2, hcalls2⟩ := ih (mutateSource e qi qm).1 hq1
    exact ⟨hq2, hcalls2.trans hcalls⟩

/-- Claim C6.  If a resolver invoked by the sync worker of the projection
engine fails (a thrown exception or a rejected promise), the failure is
caught inside the worker — the mutation that triggered the run returns
normally with the failure merely reported — the failure is logged once,
the engine disables itself emitting exactly one switch signal, every
dependency buffer is detached, and no resolver is invoked again by any
subsequent sequence of dependency mutations (the resolver-call counter
stays frozen) until a manual `enable()`, which is the only operation that
re-attaches buffers. -/
theorem resolver_failure_quarantine (e : Engine α) (i : ℕ) (m : SrcMut α)
    (he : e.isLocallyEnabled = true)
    (herr : (mutateSource e i m).2 = true) :
    Quarantined (mutateSource e i m).1 ∧
    (mutateSource e i m).1.logCount = e.logCount + 1 ∧
    (mutateSource e i m).1.switchCount = e.switchCount + 1 ∧
    (∀ ms : List (ℕ × SrcMut α),
      (runMutations (mutateSource e i m).1 ms).resolverCalls =
        (mutateSource e i m).1.resolverCalls ∧
      Quarantined (runMutations (mutateSource e i m).1 ms)) := by
  rcases hd : mutDecide e i m with e1 | e1
  · rw [mutateSource, hd] at herr
    simp at herr
  · have hfields := mutDecide_sync_fields hd
    rw [mutateSource, hd] at herr ⊢
    have hsync := syncLoop_error (e1.buffers.length + 1) e1
      (hfields.1.trans he) herr
    refine ⟨hsync.1, ?_, ?_, ?_⟩
    · show (synchronize e1).1.logCount = e.logCount + 1
      rw [show (synchronize e1).1.logCount =
        (syncLoop (e1.buffers.length + 1) e1).1.logCount from rfl,
        hsync.2.1, hfields.2.1]
    · show (synchronize e1).1.switchCount = e.switchCount + 1
      rw [show (synchronize e1).1.switchCount =
        (syncLoop (e1.buffers.length + 1) e1).1.switchCount from rfl,
        hsync.2.2, hfields.2.2]
    · intro ms
      obtain ⟨hq2, hcalls⟩ := runMutations_quarantined ms _ hsync.1
      exact ⟨hcalls, hq2⟩

/-- Witness for claim C6: the single-dependency engine `engineW`, whose
resolver rejects any delta carrying a decrement; deleting `0` from the
source triggers the failing run, and a later addition causes no further
resolver call. -/
theorem resolver_failure_quarantine_witness :
    engineW.isLocallyEnabled = true ∧
    (mutateSource engineW 0 (.setDelta ∅ {0})).2 = true ∧
    (mutateSource engineW 0 (.setDelta ∅ {0})).1.isLocallyEnabled =
      false ∧
    (runMutations (mutateSource engineW 0 (.setDelta ∅ {0})).1
        [(0, .setDelta {5} ∅)]).resolverCalls =
      (mutateSource engineW 0 (.setDelta ∅ {0})).1.resolverCalls :=
  ⟨rfl, by decide,
    (resolver_failure_quarantine engineW 0 (.setDelta ∅ {0}) rfl
      (by decide)).1.1,
    ((resolver_failure_quarantine engineW 0 (.setDelta ∅ {0}) rfl
      (by decide)).2.2.2 [(0, .setDelta {5} ∅)]).1⟩

end HeavyReactive
